import Mathlib

/-!
# go-interview-practice: employee roster (challenge 3) and context manager (challenge 30)

A shallow embedding of the two submissions

* `challenge-3/submissions/JackDalberg/solution-template.go`
* `challenge-30/submissions/ashwinipatankar/solution-template.go`

followed by the properties of their operations.

Conventions of the embedding.

* A Go slice is a `List`; a method with a pointer receiver that mutates the
  receiver returns the new receiver.
* Go `int` identifiers are only compared for equality, so they are `Int`.
* `Salary` and the two accumulators of `GetAverageSalary` are `float64`.  They
  are embedded as `F64`, a model of IEEE-754 binary64 with its NaN, its two
  infinities, signed zeros, subnormals and round-to-nearest-even addition and
  division.
* A pointer `&m.Employees[idx]` is the slot index `idx`; `nil` is `none`.
-/

set_option autoImplicit false
set_option exponentiation.threshold 4096

namespace Roster

/-! ### The type `float64`

Every finite binary64 value is a whole multiple of `2^-1074`, the smallest
positive subnormal, so a finite value is stored as a sign and a number of such
units.  The representable magnitudes are the unit counts `m * 2^s` with
`m < 2^53` that stay below `2^2098` (that is, below `2^1024`).
-/

/-- A `float64` value: NaN, an infinity with its sign (`true`: negative), or the
finite value `(-1)^neg * k * 2^-1074`. -/
inductive F64 where
  | nan
  | inf (neg : Bool)
  | fin (neg : Bool) (k : Nat)
  deriving DecidableEq

/-- The number of low bits of `f` that do not fit in a 53-bit significand:
halvings until `f` is below `2^53`.  `fuel` bounds the recursion and is always
taken to be `f` itself, which is more than enough. -/
def excessBits : Nat → Nat → Nat
  | 0, _ => 0
  | fuel + 1, f => if f < 2 ^ 53 then 0 else excessBits fuel (f / 2) + 1

/-- Rounding of the non-negative rational `N / D`, counted in units of `2^-1074`,
to the nearest representable magnitude, ties to the even significand.  With
`f` the whole part and `s` its excess bits, the candidates are `m * 2^s` and
`(m + 1) * 2^s` for `m = f / 2^s`; the discarded part `f % 2^s + (N % D) / D` is
compared with half of `2^s`.  `none` is overflow: the rounded magnitude reaches
`2^1024`. -/
def roundMag (N D : Nat) : Option Nat :=
  let f := N / D
  let r := N % D
  let s := excessBits f f
  let m := f / 2 ^ s
  let low := f % 2 ^ s
  let k := (if 2 ^ s * D < 2 * (low * D + r) ∨ (2 * (low * D + r) = 2 ^ s * D ∧ m % 2 = 1)
    then m + 1 else m) * 2 ^ s
  if 2 ^ 2098 ≤ k then none else some k

/-- The `float64` nearest to the rational `(-1)^neg * N / D` units: an infinity
on overflow. -/
def F64.round (neg : Bool) (N D : Nat) : F64 :=
  match roundMag N D with
  | some k => .fin neg k
  | none => .inf neg

/-- The `float64` value of a non-negative integer constant such as `70000`. -/
def F64.ofNat (n : Nat) : F64 := F64.round false (n * 2 ^ 1074) 1

/-- The constant `0.0`. -/
def F64.zero : F64 := .fin false 0

/-- The constant `1`, that is `2^1074` units. -/
def F64.one : F64 := .fin false (2 ^ 1074)

/-- The operator `+` on `float64`: NaN is contagious, opposite infinities give
NaN, and a finite sum is the exact sum rounded; an exact zero sum is `+0`
unless both operands are negative (`-0 + -0`). -/
def F64.add : F64 → F64 → F64
  | .nan, _ => .nan
  | _, .nan => .nan
  | .inf a, .inf b => if a = b then .inf a else .nan
  | .inf a, .fin _ _ => .inf a
  | .fin _ _, .inf b => .inf b
  | .fin a j, .fin b k =>
    if a = b then F64.round a (j + k) 1
    else if j = k then .fin false 0
    else if k < j then F64.round a (j - k) 1
    else F64.round b (k - j) 1

/-- The operator `/` on `float64`: NaN is contagious, `inf/inf` and `0/0` are
NaN, a non-zero value over zero is an infinity, and a finite quotient is the
exact quotient rounded; the sign is the exclusive or of the signs. -/
def F64.div : F64 → F64 → F64
  | .nan, _ => .nan
  | _, .nan => .nan
  | .inf _, .inf _ => .nan
  | .inf a, .fin b _ => .inf (a != b)
  | .fin a _, .inf b => .fin (a != b) 0
  | .fin a j, .fin b k =>
    if k = 0 then (if j = 0 then .nan else .inf (a != b))
    else F64.round (a != b) (j * 2 ^ 1074) k

/-- The test `x != 0` on `float64`: false on the two zeros only (NaN and the
infinities differ from 0). -/
def F64.neZero : F64 → Bool
  | .fin _ 0 => false
  | _ => true

/-- The running sum `sum += x` over a list, from `0.0`, left to right. -/
def F64.sum (xs : List F64) : F64 :=
  xs.foldl F64.add F64.zero

/-- The record type `Employee`. -/
structure Employee where
  ID : Int
  Name : String
  Age : Int
  Salary : F64
  deriving DecidableEq

/-- The type `Manager`: it owns the slice `Employees`. -/
structure Manager where
  Employees : List Employee
  deriving DecidableEq

/-- The zero value `Manager{}`: the slice is nil. -/
def Manager.empty : Manager := ⟨[]⟩

/-- `AddEmployee`: `m.Employees = append(m.Employees, e)`. -/
def Manager.AddEmployee (m : Manager) (e : Employee) : Manager :=
  ⟨m.Employees ++ [e]⟩

/-- The loop `for idx, employee := range m.Employees { if employee.ID == id { ... return } }`
shared by `RemoveEmployee` and `FindEmployeeByID`: `scan id es idx` walks the
remaining elements `es`, the first of which sits at index `idx`, and yields the
index at which the loop body fires, or `none` when the loop runs to its end. -/
def scan (id : Int) : List Employee → Nat → Option Nat
  | [], _ => none
  | e :: rest, idx => if e.ID = id then some idx else scan id rest (idx + 1)

/-- `RemoveEmployee`: at the first index whose `ID` equals `id` the slice becomes
`append(m.Employees[:idx], m.Employees[idx+1:]...)` and the method returns; when
the loop ends without a match nothing is assigned. -/
def Manager.RemoveEmployee (m : Manager) (id : Int) : Manager :=
  match scan id m.Employees 0 with
  | some idx => ⟨m.Employees.take idx ++ m.Employees.drop (idx + 1)⟩
  | none => m

/-- `GetAverageSalary`: one pass accumulating `sum` and `count` (both `float64`,
both from `0.0`, `count += 1` per element), then `sum/count` when `count != 0`
and `0.0` otherwise. -/
def Manager.GetAverageSalary (m : Manager) : F64 :=
  let acc := m.Employees.foldl
    (fun (a : F64 × F64) (employee : Employee) =>
      (a.1.add employee.Salary, a.2.add F64.one)) (F64.zero, F64.zero)
  if acc.2.neZero then acc.1.div acc.2 else F64.zero

/-- `FindEmployeeByID`: the pointer `&m.Employees[idx]` for the first index whose
`ID` equals `id` (as the slot index), or `nil`. -/
def Manager.FindEmployeeByID (m : Manager) (id : Int) : Option Nat :=
  scan id m.Employees 0

/-- Dereferencing the result of `FindEmployeeByID` against the manager it points
into: the record stored in the slot, `none` for the nil pointer. -/
def Manager.load (m : Manager) (p : Option Nat) : Option Employee :=
  p.bind fun idx => m.Employees.get? idx

/-- A call on a manager, as issued by a client. -/
inductive Call where
  | add (e : Employee)
  | remove (id : Int)

/-- One call applied to a manager. -/
def Manager.step (m : Manager) : Call → Manager
  | .add e => m.AddEmployee e
  | .remove id => m.RemoveEmployee id

/-- A finite sequence of calls applied in order. -/
def Manager.run (m : Manager) (calls : List Call) : Manager :=
  calls.foldl Manager.step m

/-- The first record `main` adds. -/
def alice : Employee := ⟨1, "Alice", 30, F64.ofNat 70000⟩

/-- The second record `main` adds. -/
def bob : Employee := ⟨2, "Bob", 25, F64.ofNat 65000⟩

/-- The roster of `main` after its two `AddEmployee` calls. -/
def addedRoster : Manager :=
  Manager.empty.run [.add alice, .add bob]

/-- The roster built by `main`: add Alice, add Bob, remove id 1. -/
def mainRoster : Manager :=
  Manager.empty.run [.add alice, .add bob, .remove 1]

/-- Two calls adding salaries of `2^1023` each: both finite, their exact mean
`2^1023` is a `float64`, their sum is not. -/
def overflowCalls : List Call :=
  [.add ⟨1, "Ann", 52, F64.ofNat (2 ^ 1023)⟩, .add ⟨2, "Ben", 47, F64.ofNat (2 ^ 1023)⟩]

/-- Four calls adding the salaries `2^53`, `1`, `1` and `2`: the exact sum is
`2^53 + 4` and the exact mean `2^51 + 1`, both of them `float64` values. -/
def roundingCalls : List Call :=
  [.add ⟨1, "Ann", 52, F64.ofNat (2 ^ 53)⟩, .add ⟨2, "Ben", 47, F64.ofNat 1⟩,
    .add ⟨3, "Cid", 39, F64.ofNat 1⟩, .add ⟨4, "Dee", 28, F64.ofNat 2⟩]

/-- A roster in which the identifier 1 occurs twice, around another record. -/
def twiceRoster : Manager :=
  Manager.empty.run [.add alice, .add bob, .add ⟨1, "Carol", 41, F64.ofNat 80000⟩]

end Roster

namespace ContextManager

/-! ## Challenge 30: the context manager

The context primitive (`context.Context`, `context.WithValue`, ...) belongs to
the Go standard library, not to the repository; the submission only composes
it.  The parts of it the methods use are modelled below.
-/

/-- Modelled from the spec: the type `context.Context`, which the repository
uses but does not declare.  A context is an immutable node linked to its parent;
a node carries either a cancellation signal (`cancelCtx`, made by
`CreateCancellableContext`), a deadline (`timerCtx`, made by
`CreateTimeoutContext`) or one key/value pair (`valueCtx`, made by `AddValue`).
`background` is the root.  `K` is the type of usable keys (non-nil and
comparable, the only ones `context.WithValue` accepts); a value is an
`interface{}`, with `none` for `nil`. -/
inductive Context (K V : Type) where
  | background : Context K V
  | cancelCtx (parent : Context K V) : Context K V
  | timerCtx (parent : Context K V) (timeout : Nat) : Context K V
  | valueCtx (parent : Context K V) (key : K) (val : Option V) : Context K V

variable {K V : Type}

/-- Modelled from the spec: the method `ctx.Value(key)` of the missing type.
Value lookup walks from the node up through its ancestors and returns the value
of the nearest node whose key matches; at the root the answer is `nil`. -/
def Context.Value [DecidableEq K] : Context K V → K → Option V
  | .background, _ => none
  | .cancelCtx parent, k => parent.Value k
  | .timerCtx parent _, k => parent.Value k
  | .valueCtx parent key val, k => if key = k then val else parent.Value k

/-- `AddValue`: `context.WithValue(parent, key, value)`. -/
def AddValue (parent : Context K V) (key : K) (value : Option V) : Context K V :=
  .valueCtx parent key value

/-- `GetValue`: `val := ctx.Value(key)`, then `(nil, false)` when `val == nil`
and `(val, true)` otherwise. -/
def GetValue [DecidableEq K] (ctx : Context K V) (key : K) : Option V × Bool :=
  match ctx.Value key with
  | none => (none, false)
  | some val => (some val, true)

/-- The key/value pair a node itself carries, if it carries one. -/
def Context.pair? : Context K V → Option (K × Option V)
  | .valueCtx _ key val => some (key, val)
  | _ => none

/-- The node followed by its ancestors, nearest first. -/
def Context.chain : Context K V → List (Context K V)
  | .background => [.background]
  | .cancelCtx parent => .cancelCtx parent :: parent.chain
  | .timerCtx parent timeout => .timerCtx parent timeout :: parent.chain
  | .valueCtx parent key val => .valueCtx parent key val :: parent.chain

/-- A node defines `key` when the pair it carries has that key. -/
def Context.definesKey [DecidableEq K] (node : Context K V) (key : K) : Bool :=
  match node.pair? with
  | some (k, _) => decide (k = key)
  | none => false

/-- The value stored for `key`: the one carried by the nearest node of the chain
that defines `key`; `none` when no node of the chain does. -/
def Context.stored [DecidableEq K] (ctx : Context K V) (key : K) : Option (Option V) :=
  ((ctx.chain.find? fun node => node.definesKey key).bind Context.pair?).map (·.2)

/-- The two reasons a context reports once it is done. -/
inductive Reason where
  | canceled
  | deadlineExceeded
  deriving DecidableEq

/-- A non-nil Go `error`: the two values of package `context`, or any other
error; a nil `error` is `none : Option GoError`. -/
inductive GoError where
  | Canceled
  | DeadlineExceeded
  | other (msg : String)
  deriving DecidableEq

/-- The error value `ctx.Err()` returns for a reason. -/
def Reason.err : Reason → GoError
  | .canceled => .Canceled
  | .deadlineExceeded => .DeadlineExceeded

/-- The string built by `fmt.Sprintf("processed_%v", item)` for a string item. -/
def processed (item : String) : String := "processed_" ++ item

/-- The loop of `ProcessItems`.  `observed i` is the outcome of the non-blocking
receive `case <-ctx.Done()` at the top of iteration `i` (`true`: the channel is
closed), `reason` is what `ctx.Err()` then reports, `rest` are the items still to
visit and `newItems` the output so far.  The `time.Sleep` of each iteration has
no effect on the values and is left out. -/
def ProcessItems.loop (observed : Nat → Bool) (reason : Reason) :
    List String → Nat → List String → List String × Option GoError
  | [], _, newItems => (newItems, none)
  | item :: rest, i, newItems =>
    if observed i then (newItems, some reason.err)
    else ProcessItems.loop observed reason rest (i + 1) (newItems ++ [processed item])

/-- `ProcessItems`: `newItems` starts nil and the loop starts at index 0. -/
def ProcessItems (observed : Nat → Bool) (reason : Reason) (items : List String) :
    List String × Option GoError :=
  ProcessItems.loop observed reason items 0 []

/-- The cancellation side of a context as one call sees it, on a clock of
discrete instants whose instant 0 is the call: `doneAt` is the instant at which
`ctx.Done()` is closed (`some 0`: done before the call, `none`: never cancelled
and never expired) and `reason` is what `ctx.Err()` reports from then on. -/
structure Signal where
  doneAt : Option Nat
  reason : Reason

/-- A task `func() error`: how many instants it runs (`none`: it never returns)
and the error value it returns. -/
structure Task where
  runtime : Option Nat
  result : Option GoError

/-- The choices the Go runtime makes during one call of `ExecuteWithContext`:
the instant at which the goroutine started by the `go` statement begins to run
the task, the instant at which the caller evaluates the `select` statement, and
the pseudo-random pick among the cases when both can proceed (`true`: the case
`err := <-done`). -/
structure Schedule where
  goDelay : Nat
  selectAt : Nat
  pickDone : Bool

/-- The two cases of the `select` statement of `ExecuteWithContext`. -/
inductive SelectCase where
  | taskDone
  | ctxDone
  deriving DecidableEq

/-- The `select` statement over `<-done` and `<-ctx.Done()`.  `sendAt` is the
instant at which the goroutine has sent the result into the buffered channel
`done` and `doneAt` the instant at which `ctx.Done()` is closed.  The statement
is evaluated at `selectAt`; when no case can proceed it blocks until the first
instant at which one can.  A single case that can proceed is taken; when both
can, the pick decides.  With neither event ever happening it blocks forever. -/
def selectCase (pickDone : Bool) (selectAt : Nat) :
    Option Nat → Option Nat → Option SelectCase
  | none, none => none
  | some _, none => some .taskDone
  | none, some _ => some .ctxDone
  | some s, some d =>
    let wake := max selectAt (min s d)
    if s ≤ wake ∧ d ≤ wake then
      (if pickDone then some .taskDone else some .ctxDone)
    else if s ≤ wake then some .taskDone
    else some .ctxDone

/-- `ExecuteWithContext`: the task runs in its own goroutine and sends its result
into `done` (capacity 1, so the send never blocks); the caller returns the
received result or `ctx.Err()` according to the case the `select` takes.  The
outer `none` is a call that never returns. -/
def ExecuteWithContext (sched : Schedule) (ctx : Signal) (task : Task) :
    Option (Option GoError) :=
  let sendAt := task.runtime.map fun r => sched.goDelay + r
  (selectCase sched.pickDone sched.selectAt sendAt ctx.doneAt).map fun
    | .taskDone => task.result
    | .ctxDone => some ctx.reason.err

/-- Whether the goroutine has already sent the result of the task into `done`
at the instant the caller evaluates the `select` statement. -/
def sentBySelect (sched : Schedule) (task : Task) : Bool :=
  match task.runtime with
  | some r => decide (sched.goDelay + r ≤ sched.selectAt)
  | none => false

/-- The context `main` builds, with its two `AddValue` calls on top of a
cancellable child of the background context. -/
def mainCtx : Context String String :=
  AddValue (AddValue (.cancelCtx .background) "user" (some "alice")) "requestID" (some "12345")

end ContextManager

/-! ## Challenge 3: properties of the roster -/

namespace Roster

/-! ### The scanning loop -/

theorem scan_none_iff (id : Int) (es : List Employee) (idx : Nat) :
    scan id es idx = none ↔ ∀ e ∈ es, e.ID ≠ id := by
  induction es generalizing idx with
  | nil => simp [scan]
  | cons e rest ih =>
    by_cases h : e.ID = id
    · simp [scan, h]
    · simp [scan, h, ih]

theorem scan_shift (id : Int) (es : List Employee) (idx : Nat) :
    scan id es idx = (scan id es 0).map (· + idx) := by
  induction es generalizing idx with
  | nil => simp [scan]
  | cons e rest ih =>
    by_cases h : e.ID = id
    · simp [scan, h]
    · simp only [scan, h, if_false]
      rw [ih (idx + 1), ih (0 + 1)]
      cases scan id rest 0 <;> simp [Nat.add_comm, Nat.add_left_comm]

theorem scan_cons_ne (id : Int) (e : Employee) (rest : List Employee) (h : e.ID ≠ id) :
    scan id (e :: rest) 0 = (scan id rest 0).map (· + 1) := by
  simp only [scan, h, if_false]
  exact scan_shift id rest 1

/-- What the index returned by the loop is: in range, a match, and no earlier match. -/
theorem scan_some_spec (id : Int) (es : List Employee) (i : Nat)
    (h : scan id es 0 = some i) :
    ∃ hi : i < es.length, (es.get ⟨i, hi⟩).ID = id ∧
      ∀ j (hj : j < es.length), j < i → (es.get ⟨j, hj⟩).ID ≠ id := by
  induction es generalizing i with
  | nil => simp [scan] at h
  | cons e rest ih =>
    by_cases he : e.ID = id
    · simp [scan, he] at h
      subst h
      exact ⟨by simp, by simpa using he, fun j _ hj => absurd hj (Nat.not_lt_zero j)⟩
    · rw [scan_cons_ne id e rest he] at h
      cases hr : scan id rest 0 with
      | none => simp [hr] at h
      | some k =>
        simp [hr] at h
        subst h
        obtain ⟨hk, hid, hmin⟩ := ih k hr
        refine ⟨by simpa using hk, by simpa using hid, ?_⟩
        intro j hj hlt
        cases j with
        | zero => simpa using he
        | succ j =>
          have hj2 : j < rest.length := by simpa using hj
          simpa using hmin j hj2 (by omega)


/-! ### The operations as list functions -/

theorem find_eq_find? (m : Manager) (id : Int) :
    m.load (m.FindEmployeeByID id) = m.Employees.find? (fun e => decide (e.ID = id)) := by
  obtain ⟨es⟩ := m
  simp only [Manager.load, Manager.FindEmployeeByID]
  induction es with
  | nil => simp [scan]
  | cons e rest ih =>
    by_cases h : e.ID = id
    · simp [scan, h]
    · rw [scan_cons_ne id e rest h]
      rw [List.find?_cons_of_neg _ (by simpa using h), ← ih]
      cases scan id rest 0 <;> simp

theorem RemoveEmployee_eq_eraseP (m : Manager) (id : Int) :
    (m.RemoveEmployee id).Employees = m.Employees.eraseP (fun e => decide (e.ID = id)) := by
  obtain ⟨es⟩ := m
  simp only [Manager.RemoveEmployee]
  induction es with
  | nil => simp [scan]
  | cons e rest ih =>
    by_cases h : e.ID = id
    · simp [scan, h]
    · rw [scan_cons_ne id e rest h]
      rw [List.eraseP_cons_of_neg (by simpa using h), ← ih]
      cases scan id rest 0 <;> simp


theorem find?_eraseP_same (id : Int) (es : List Employee)
    (h : es.countP (fun e => decide (e.ID = id)) ≤ 1) :
    (es.eraseP (fun e => decide (e.ID = id))).find? (fun e => decide (e.ID = id)) = none := by
  induction es with
  | nil => simp
  | cons e rest ih =>
    by_cases he : e.ID = id
    · have h0 : rest.countP (fun e => decide (e.ID = id)) = 0 := by
        simp [List.countP_cons, he] at h
        simpa using h
      have hnone : ∀ x ∈ rest, x.ID ≠ id := by
        simpa [List.countP_eq_zero] using h0
      rw [List.eraseP_cons_of_pos (by simpa using he)]
      simpa [List.find?_eq_none] using hnone
    · have h1 : rest.countP (fun e => decide (e.ID = id)) ≤ 1 := by
        simpa [List.countP_cons, he] using h
      rw [List.eraseP_cons_of_neg (by simpa using he),
        List.find?_cons_of_neg _ (by simpa using he)]
      exact ih h1

theorem find?_eraseP_other (id id2 : Int) (hne : id2 ≠ id) (es : List Employee) :
    (es.eraseP (fun e => decide (e.ID = id))).find? (fun e => decide (e.ID = id2)) =
      es.find? (fun e => decide (e.ID = id2)) := by
  induction es with
  | nil => simp
  | cons e rest ih =>
    by_cases he : e.ID = id
    · have h2 : e.ID ≠ id2 := fun h => hne (h.symm.trans he)
      rw [List.eraseP_cons_of_pos (by simpa using he),
        List.find?_cons_of_neg _ (by simpa using h2)]
    · rw [List.eraseP_cons_of_neg (by simpa using he)]
      by_cases h2 : e.ID = id2
      · rw [List.find?_cons_of_pos _ (by simpa using h2),
          List.find?_cons_of_pos _ (by simpa using h2)]
      · rw [List.find?_cons_of_neg _ (by simpa using h2),
          List.find?_cons_of_neg _ (by simpa using h2), ih]

/-! ### The claims about the roster -/

/-- C2: `FindEmployeeByID` returns nil exactly when no element of the sequence
has the identifier; a non-nil result points at the smallest index whose
identifier equals `id`, and dereferences to the element stored there. -/
theorem FindEmployeeByID_first (m : Manager) (id : Int) :
    (m.FindEmployeeByID id = none ↔ ∀ e ∈ m.Employees, e.ID ≠ id) ∧
    ∀ i, m.FindEmployeeByID id = some i →
      ∃ hi : i < m.Employees.length,
        (m.Employees.get ⟨i, hi⟩).ID = id ∧
        (∀ j (hj : j < m.Employees.length), j < i → (m.Employees.get ⟨j, hj⟩).ID ≠ id) ∧
        m.load (m.FindEmployeeByID id) = some (m.Employees.get ⟨i, hi⟩) := by
  refine ⟨scan_none_iff id m.Employees 0, ?_⟩
  intro i h
  obtain ⟨hi, hid, hmin⟩ := scan_some_spec id m.Employees i h
  refine ⟨hi, hid, hmin, ?_⟩
  rw [h]
  simp [Manager.load, List.get?_eq_get hi]

/-- The lookup of id 2 in the roster of `main` points at slot 0, which holds Bob. -/
theorem FindEmployeeByID_first_witness :
    mainRoster.FindEmployeeByID 2 = some 0 ∧
    ∃ hi : 0 < mainRoster.Employees.length,
      (mainRoster.Employees.get ⟨0, hi⟩).ID = 2 ∧
      (∀ j (hj : j < mainRoster.Employees.length), j < 0 →
        (mainRoster.Employees.get ⟨j, hj⟩).ID ≠ 2) ∧
      mainRoster.load (mainRoster.FindEmployeeByID 2) =
        some (mainRoster.Employees.get ⟨0, hi⟩) :=
  ⟨by decide, (FindEmployeeByID_first mainRoster 2).2 0 (by decide)⟩

/-- C3: when no element has the identifier `id`, `RemoveEmployee(id)` leaves the
employee sequence unchanged: same elements in the same order, same length. -/
theorem RemoveEmployee_absent (m : Manager) (id : Int)
    (h : ∀ e ∈ m.Employees, e.ID ≠ id) :
    (m.RemoveEmployee id).Employees = m.Employees ∧
    (m.RemoveEmployee id).Employees.length = m.Employees.length := by
  have hs : scan id m.Employees 0 = none := (scan_none_iff id m.Employees 0).2 h
  simp [Manager.RemoveEmployee, hs]

/-- Removing the absent id 7 from the roster of `main` changes nothing. -/
theorem RemoveEmployee_absent_witness :
    (∀ e ∈ mainRoster.Employees, e.ID ≠ 7) ∧
    (mainRoster.RemoveEmployee 7).Employees = mainRoster.Employees ∧
    (mainRoster.RemoveEmployee 7).Employees.length = mainRoster.Employees.length :=
  ⟨by decide, RemoveEmployee_absent mainRoster 7 (by decide)⟩

/-- C4: when some element has the identifier `id`, `RemoveEmployee(id)` removes
exactly the element at the smallest index `i` whose identifier equals `id`: the
new sequence is the elements before `i` followed by the elements after `i`, in
their original order, the length drops by exactly one, and every later element
(with the same identifier or not) is still there. -/
theorem RemoveEmployee_present (m : Manager) (id : Int)
    (h : ∃ e ∈ m.Employees, e.ID = id) :
    ∃ i, ∃ hi : i < m.Employees.length,
      (m.Employees.get ⟨i, hi⟩).ID = id ∧
      (∀ j (hj : j < m.Employees.length), j < i → (m.Employees.get ⟨j, hj⟩).ID ≠ id) ∧
      (m.RemoveEmployee id).Employees = m.Employees.take i ++ m.Employees.drop (i + 1) ∧
      (m.RemoveEmployee id).Employees.length + 1 = m.Employees.length ∧
      ∀ e ∈ m.Employees.drop (i + 1), e ∈ (m.RemoveEmployee id).Employees := by
  cases hs : scan id m.Employees 0 with
  | none =>
    obtain ⟨e, he, hid⟩ := h
    exact absurd hid ((scan_none_iff id m.Employees 0).1 hs e he)
  | some i =>
    obtain ⟨hi, hid, hmin⟩ := scan_some_spec id m.Employees i hs
    have hE : (m.RemoveEmployee id).Employees =
        m.Employees.take i ++ m.Employees.drop (i + 1) := by
      simp [Manager.RemoveEmployee, hs]
    refine ⟨i, hi, hid, hmin, hE, ?_, ?_⟩
    · rw [hE]
      simp only [List.length_append, List.length_take, List.length_drop]
      omega
    · intro e he
      rw [hE]
      exact List.mem_append_right _ he


/-- Removing id 1 from a roster that holds it twice drops slot 0 only: the later
record with the same identifier stays. -/
theorem RemoveEmployee_present_witness :
    (∃ e ∈ twiceRoster.Employees, e.ID = 1) ∧
    (twiceRoster.RemoveEmployee 1).Employees = [bob, ⟨1, "Carol", 41, F64.ofNat 80000⟩] ∧
    ∃ i, ∃ hi : i < twiceRoster.Employees.length,
      (twiceRoster.Employees.get ⟨i, hi⟩).ID = 1 ∧
      (∀ j (hj : j < twiceRoster.Employees.length), j < i →
        (twiceRoster.Employees.get ⟨j, hj⟩).ID ≠ 1) ∧
      (twiceRoster.RemoveEmployee 1).Employees =
        twiceRoster.Employees.take i ++ twiceRoster.Employees.drop (i + 1) ∧
      (twiceRoster.RemoveEmployee 1).Employees.length + 1 = twiceRoster.Employees.length ∧
      ∀ e ∈ twiceRoster.Employees.drop (i + 1), e ∈ (twiceRoster.RemoveEmployee 1).Employees :=
  ⟨⟨alice, by decide!, by decide⟩, by decide!,
    RemoveEmployee_present twiceRoster 1 ⟨alice, by decide!, by decide⟩⟩

/-- C5: in a roster where `id` is the identifier of at most one element, after
`RemoveEmployee(id)` the lookup of `id` returns nil, and the lookup of any other
identifier returns the same record as before the removal. -/
theorem RemoveEmployee_then_find (m : Manager) (id : Int)
    (h : m.Employees.countP (fun e => decide (e.ID = id)) ≤ 1) :
    (m.RemoveEmployee id).FindEmployeeByID id = none ∧
    ∀ id2, id2 ≠ id →
      (m.RemoveEmployee id).load ((m.RemoveEmployee id).FindEmployeeByID id2) =
        m.load (m.FindEmployeeByID id2) := by
  constructor
  · have hf := find?_eraseP_same id m.Employees h
    rw [← RemoveEmployee_eq_eraseP] at hf
    apply (scan_none_iff id (m.RemoveEmployee id).Employees 0).2
    intro e he
    simpa using (List.find?_eq_none.1 hf) e he
  · intro id2 hne
    rw [find_eq_find?, find_eq_find?, RemoveEmployee_eq_eraseP]
    exact find?_eraseP_other id id2 hne m.Employees

/-- The scenario of `main`: after adding Alice (id 1) and Bob (id 2) and removing
id 1, the average salary is 65000, the lookup of 2 yields the Bob record and the
lookup of 1 yields nil. -/
theorem RemoveEmployee_then_find_witness :
    addedRoster.Employees.countP (fun e => decide (e.ID = 1)) ≤ 1 ∧
    addedRoster.RemoveEmployee 1 = mainRoster ∧
    mainRoster.GetAverageSalary = F64.ofNat 65000 ∧
    mainRoster.load (mainRoster.FindEmployeeByID 2) = some bob ∧
    mainRoster.FindEmployeeByID 1 = none ∧
    ((addedRoster.RemoveEmployee 1).FindEmployeeByID 1 = none ∧
      ∀ id2, id2 ≠ 1 →
        (addedRoster.RemoveEmployee 1).load ((addedRoster.RemoveEmployee 1).FindEmployeeByID id2) =
          addedRoster.load (addedRoster.FindEmployeeByID id2)) :=
  ⟨by decide, by decide!, by decide!, by decide!, by decide,
    RemoveEmployee_then_find addedRoster 1 (by decide)⟩

end Roster

/-! ## Challenge 30: properties of the context manager -/

namespace ContextManager

variable {K V : Type}

/-! ### Value lookup -/

theorem stored_eq_none_iff [DecidableEq K] (ctx : Context K V) (key : K) :
    ctx.stored key = none ↔ ∀ node ∈ ctx.chain, node.definesKey key = false := by
  induction ctx with
  | background => simp [Context.stored, Context.chain, Context.definesKey, Context.pair?]
  | cancelCtx parent ih =>
    simpa [Context.stored, Context.chain, Context.definesKey, Context.pair?] using ih
  | timerCtx parent timeout ih =>
    simpa [Context.stored, Context.chain, Context.definesKey, Context.pair?] using ih
  | valueCtx parent k val ih =>
    by_cases h : k = key
    · simp [Context.stored, Context.chain, Context.definesKey, Context.pair?, h]
    · simpa [Context.stored, Context.chain, Context.definesKey, Context.pair?, h] using ih

/-- The lookup returns the stored value, and nil when nothing is stored. -/
theorem Value_eq_stored [DecidableEq K] (ctx : Context K V) (key : K) :
    ctx.Value key = (ctx.stored key).join := by
  induction ctx with
  | background => simp [Context.stored, Context.chain, Context.definesKey, Context.pair?,
      Context.Value]
  | cancelCtx parent ih =>
    simpa [Context.stored, Context.chain, Context.definesKey, Context.pair?,
      Context.Value] using ih
  | timerCtx parent timeout ih =>
    simpa [Context.stored, Context.chain, Context.definesKey, Context.pair?,
      Context.Value] using ih
  | valueCtx parent k val ih =>
    by_cases h : k = key
    · simp [Context.stored, Context.chain, Context.definesKey, Context.pair?,
        Context.Value, h]
    · simpa [Context.stored, Context.chain, Context.definesKey, Context.pair?,
        Context.Value, h] using ih


/-! ### The claims about `GetValue` and `AddValue` -/

/-- C6: `GetValue(ctx, key)` returns `(nil, false)` when no node of the chain of
`ctx` (itself included) defines `key`, and also when the value stored for `key`
is nil; otherwise it returns the stored value together with `true`. -/
theorem GetValue_found [DecidableEq K] (ctx : Context K V) (key : K) :
    ((∀ node ∈ ctx.chain, node.definesKey key = false) → GetValue ctx key = (none, false)) ∧
    (ctx.stored key = some none → GetValue ctx key = (none, false)) ∧
    (∀ v, ctx.stored key = some (some v) → GetValue ctx key = (some v, true)) := by
  refine ⟨fun h => ?_, fun h => ?_, fun v h => ?_⟩
  · have hs : ctx.stored key = none := (stored_eq_none_iff ctx key).2 h
    simp [GetValue, Value_eq_stored, hs]
  · simp [GetValue, Value_eq_stored, h]
  · simp [GetValue, Value_eq_stored, h]

/-- On the context of `main`: the key "user", defined on an ancestor, is found;
a key nobody defines is not. -/
theorem GetValue_found_witness :
    mainCtx.stored "user" = some (some "alice") ∧
    GetValue mainCtx "user" = (some "alice", true) ∧
    (∀ node ∈ mainCtx.chain, node.definesKey "trace" = false) ∧
    GetValue mainCtx "trace" = (none, false) :=
  ⟨by decide, (GetValue_found mainCtx "user").2.2 "alice" (by decide),
    by decide, (GetValue_found mainCtx "trace").1 (by decide)⟩

/-- C7: for `child = AddValue(parent, k, v)` with `v` non-nil, `GetValue(child, k)`
is `(v, true)` whatever `parent` binds to `k`, and for every other key `k2` the
lookup on the child equals the lookup on the parent. -/
theorem AddValue_GetValue [DecidableEq K] (parent : Context K V) (k k2 : K) (v : V) :
    GetValue (AddValue parent k (some v)) k = (some v, true) ∧
    (k2 ≠ k → GetValue (AddValue parent k (some v)) k2 = GetValue parent k2) := by
  constructor
  · simp [GetValue, AddValue, Context.Value]
  · intro h
    have h2 : ¬ k = k2 := fun e => h e.symm
    simp [GetValue, AddValue, Context.Value, h2]

/-- Rebinding "user" on the context of `main` shadows the ancestor's value, and
"requestID" is still found with the value the parent gives it. -/
theorem AddValue_GetValue_witness :
    GetValue mainCtx "user" = (some "alice", true) ∧
    GetValue (AddValue mainCtx "user" (some "bob")) "user" = (some "bob", true) ∧
    GetValue (AddValue mainCtx "user" (some "bob")) "requestID" = GetValue mainCtx "requestID" ∧
    GetValue mainCtx "requestID" = (some "12345", true) :=
  ⟨by decide, (AddValue_GetValue mainCtx "user" "requestID" "bob").1,
    (AddValue_GetValue mainCtx "user" "requestID" "bob").2 (by decide), by decide⟩


/-! ### The loop of `ProcessItems` -/

/-- When every check of the remaining iterations answers "not done", the loop
appends every remaining item, transformed, and returns no error. -/
theorem loop_all (observed : Nat → Bool) (reason : Reason) (rest : List String)
    (i : Nat) (newItems : List String)
    (h : ∀ j, j < rest.length → observed (i + j) = false) :
    ProcessItems.loop observed reason rest i newItems =
      (newItems ++ rest.map processed, none) := by
  induction rest generalizing i newItems with
  | nil => simp [ProcessItems.loop]
  | cons item rest ih =>
    have h0 : observed i = false := by simpa using h 0 (by simp)
    have hrest : ∀ j, j < rest.length → observed (i + 1 + j) = false := by
      intro j hj
      have := h (j + 1) (by simpa using hj)
      simpa [Nat.add_assoc, Nat.add_comm 1 j] using this
    simp [ProcessItems.loop, h0, ih (i + 1) _ hrest]

/-- When the check `k` iterations ahead is the first to answer "done", the loop
appends the next `k` items, transformed, and returns the reason. -/
theorem loop_cut (observed : Nat → Bool) (reason : Reason) (rest : List String)
    (i : Nat) (newItems : List String) (k : Nat) (hk : k < rest.length)
    (h : ∀ j, j < k → observed (i + j) = false) (hdone : observed (i + k) = true) :
    ProcessItems.loop observed reason rest i newItems =
      (newItems ++ (rest.take k).map processed, some reason.err) := by
  induction rest generalizing i newItems k with
  | nil => simp at hk
  | cons item rest ih =>
    cases k with
    | zero =>
      have h0 : observed i = true := by simpa using hdone
      simp [ProcessItems.loop, h0]
    | succ k =>
      have h0 : observed i = false := by simpa using h 0 (by omega)
      have hk2 : k < rest.length := by simpa using hk
      have hrest : ∀ j, j < k → observed (i + 1 + j) = false := by
        intro j hj
        have := h (j + 1) (by omega)
        simpa [Nat.add_assoc, Nat.add_comm 1 j] using this
      have hd : observed (i + 1 + k) = true := by
        simpa [Nat.add_assoc, Nat.add_comm 1 k] using hdone
      simp [ProcessItems.loop, h0, ih (i + 1) _ k hk2 hrest hd]

/-- C8: if no check of `ProcessItems` observes the context cancelled, the result
is every item prefixed with "processed_", in order and of the same length, with
no error; if the check before item `i` is the first to observe cancellation, the
result is exactly the first `i` transformed items together with the reason of
the context. -/
theorem ProcessItems_result (observed : Nat → Bool) (reason : Reason) (items : List String) :
    ((∀ j, j < items.length → observed j = false) →
      ProcessItems observed reason items = (items.map processed, none) ∧
      (ProcessItems observed reason items).1.length = items.length) ∧
    (∀ i, i < items.length → (∀ j, j < i → observed j = false) → observed i = true →
      ProcessItems observed reason items =
        ((items.take i).map processed, some reason.err) ∧
      (ProcessItems observed reason items).1.length = i) := by
  constructor
  · intro h
    have hE : ProcessItems observed reason items = (items.map processed, none) := by
      have := loop_all observed reason items 0 [] (by simpa using h)
      simpa [ProcessItems] using this
    exact ⟨hE, by simp [hE]⟩
  · intro i hi h hdone
    have hE : ProcessItems observed reason items =
        ((items.take i).map processed, some reason.err) := by
      have := loop_cut observed reason items 0 [] i hi (by simpa using h) (by simpa using hdone)
      simpa [ProcessItems] using this
    refine ⟨hE, ?_⟩
    rw [hE]
    simp only [List.length_map, List.length_take]
    omega

/-- Three items: with cancellation first observed before the third, two
transformed items and the reason come back; with no cancellation, all three and
no error. -/
theorem ProcessItems_result_witness :
    (ProcessItems (fun j => decide (2 ≤ j)) .canceled ["a", "b", "c"] =
        ((["a", "b", "c"].take 2).map processed, some Reason.canceled.err) ∧
      (ProcessItems (fun j => decide (2 ≤ j)) .canceled ["a", "b", "c"]).1.length = 2) ∧
    ProcessItems (fun j => decide (2 ≤ j)) .canceled ["a", "b", "c"] =
      (["processed_a", "processed_b"], some .Canceled) ∧
    (ProcessItems (fun _ => false) .canceled ["a", "b", "c"] =
        (["a", "b", "c"].map processed, none) ∧
      (ProcessItems (fun _ => false) .canceled ["a", "b", "c"]).1.length =
        ["a", "b", "c"].length) :=
  ⟨(ProcessItems_result (fun j => decide (2 ≤ j)) .canceled ["a", "b", "c"]).2 2
      (by decide) (by decide) (by decide),
    by decide,
    (ProcessItems_result (fun _ => false) .canceled ["a", "b", "c"]).1 (by simp)⟩


/-! ### The race of `ExecuteWithContext` -/

/-- With the context done at the call, the `select` statement never blocks: the
case of `done` is taken only if the result has been sent by the time the
statement is evaluated and the pick goes to it. -/
theorem selectCase_done_at_call (pickDone : Bool) (selectAt : Nat) (sendAt : Option Nat) :
    selectCase pickDone selectAt sendAt (some 0) =
      match sendAt with
      | some s => if s ≤ selectAt ∧ pickDone = true then some .taskDone else some .ctxDone
      | none => some .ctxDone := by
  cases sendAt with
  | none => rfl
  | some s =>
    by_cases hs : s ≤ selectAt <;> cases pickDone <;> simp [selectCase, hs]

/-- A run in which the task returns nil at instant 2, the `select` statement is
evaluated at instant 3 on a context cancelled before the call, and the pick goes
to `done`: the call returns the nil of the task, not `context.Canceled`. -/
theorem ExecuteWithContext_cancelled_task_wins :
    (⟨some 0, .canceled⟩ : Signal).doneAt = some 0 ∧
    ExecuteWithContext ⟨1, 3, true⟩ ⟨some 0, .canceled⟩ ⟨some 1, none⟩ = some none ∧
    ExecuteWithContext ⟨1, 3, true⟩ ⟨some 0, .canceled⟩ ⟨some 1, none⟩ ≠
      some (some Reason.canceled.err) :=
  ⟨rfl, by decide, by decide⟩

/-- C9, as the code has it: with a context already done before the call,
`ExecuteWithContext` always returns; it returns the cancellation reason of the
context unless the task has already sent its result when the `select` statement
is evaluated and the pick goes to that case, and then it returns the result of
the task. -/
theorem ExecuteWithContext_cancelled (sched : Schedule) (ctx : Signal) (task : Task)
    (h : ctx.doneAt = some 0) :
    ((sentBySelect sched task = false ∨ sched.pickDone = false) →
      ExecuteWithContext sched ctx task = some (some ctx.reason.err)) ∧
    ((sentBySelect sched task = true ∧ sched.pickDone = true) →
      ExecuteWithContext sched ctx task = some task.result) := by
  obtain ⟨goDelay, selectAt, pickDone⟩ := sched
  obtain ⟨runtime, result⟩ := task
  simp only [ExecuteWithContext, h, selectCase_done_at_call, sentBySelect]
  cases runtime with
  | none => simp
  | some r =>
    by_cases hs : goDelay + r ≤ selectAt <;> cases pickDone <;> simp [hs]

/-- A slow task on a cancelled context yields the reason; a task that has
finished before the `select` statement, with the pick on `done`, yields its own
result. -/
theorem ExecuteWithContext_cancelled_witness :
    (⟨some 0, .deadlineExceeded⟩ : Signal).doneAt = some 0 ∧
    sentBySelect ⟨0, 0, true⟩ ⟨some 5, none⟩ = false ∧
    ExecuteWithContext ⟨0, 0, true⟩ ⟨some 0, .deadlineExceeded⟩ ⟨some 5, none⟩ =
      some (some .DeadlineExceeded) ∧
    sentBySelect ⟨1, 3, true⟩ ⟨some 1, some (.other "boom")⟩ = true ∧
    ExecuteWithContext ⟨1, 3, true⟩ ⟨some 0, .canceled⟩ ⟨some 1, some (.other "boom")⟩ =
      some (some (.other "boom")) :=
  ⟨rfl, by decide,
    (ExecuteWithContext_cancelled ⟨0, 0, true⟩ ⟨some 0, .deadlineExceeded⟩ ⟨some 5, none⟩
      rfl).1 (Or.inl (by decide)),
    by decide,
    (ExecuteWithContext_cancelled ⟨1, 3, true⟩ ⟨some 0, .canceled⟩
      ⟨some 1, some (.other "boom")⟩ rfl).2 ⟨by decide, rfl⟩⟩

/-- C10: for a task that terminates and a context that is never cancelled and
never expires, `ExecuteWithContext` returns, under every schedule, exactly the
value the task returned: nil when it succeeds, its own error when it fails. -/
theorem ExecuteWithContext_task_result (sched : Schedule) (ctx : Signal) (task : Task)
    (hctx : ctx.doneAt = none) (hterm : task.runtime.isSome = true) :
    ExecuteWithContext sched ctx task = some task.result := by
  obtain ⟨runtime, result⟩ := task
  cases runtime with
  | none => simp at hterm
  | some r => simp [ExecuteWithContext, hctx, selectCase]

/-- On a context that is never done, a task failing after 4 instants gets its
error back unchanged, and a succeeding one gets nil. -/
theorem ExecuteWithContext_task_result_witness :
    (⟨none, .canceled⟩ : Signal).doneAt = none ∧
    (⟨some 4, some (.other "boom")⟩ : Task).runtime.isSome = true ∧
    ExecuteWithContext ⟨2, 0, false⟩ ⟨none, .canceled⟩ ⟨some 4, some (.other "boom")⟩ =
      some (some (.other "boom")) ∧
    ExecuteWithContext ⟨0, 7, false⟩ ⟨none, .canceled⟩ ⟨some 0, none⟩ = some none :=
  ⟨rfl, rfl,
    ExecuteWithContext_task_result ⟨2, 0, false⟩ ⟨none, .canceled⟩
      ⟨some 4, some (.other "boom")⟩ rfl rfl,
    ExecuteWithContext_task_result ⟨0, 7, false⟩ ⟨none, .canceled⟩ ⟨some 0, none⟩ rfl rfl⟩

end ContextManager

namespace Roster

/-! ### Rounding in `float64` -/

theorem excessBits_small (fuel f : Nat) (h : f < 2 ^ 53) : excessBits fuel f = 0 := by
  cases fuel with
  | zero => rfl
  | succ fuel => rw [excessBits, if_pos h]

/-- With enough fuel, dropping the excess bits of a number of at least `2^53`
leaves a full 53-bit significand. -/
theorem excessBits_large (fuel f : Nat) (hf : f ≤ fuel) (h : 2 ^ 53 ≤ f) :
    2 ^ 52 ≤ f / 2 ^ excessBits fuel f ∧ f / 2 ^ excessBits fuel f < 2 ^ 53 := by
  induction fuel generalizing f with
  | zero =>
    exfalso
    have : 0 < 2 ^ 53 := by positivity
    omega
  | succ fuel ih =>
    have hnot : ¬ f < 2 ^ 53 := by omega
    simp only [excessBits, hnot, if_false]
    rw [show 2 ^ (excessBits fuel (f / 2) + 1) = 2 * 2 ^ excessBits fuel (f / 2) from
      pow_succ' _ _, ← Nat.div_div_eq_div_mul]
    by_cases h2 : f / 2 < 2 ^ 53
    · rw [excessBits_small fuel _ h2]
      simp only [pow_zero, Nat.div_one]
      exact ⟨by omega, h2⟩
    · exact ih (f / 2) (by omega) (by omega)

/-- A magnitude whose excess bits are all zero, below the overflow threshold,
rounds to itself. -/
theorem roundMag_of_dvd (f : Nat) (hd : 2 ^ excessBits f f ∣ f) (hlt : f < 2 ^ 2098) :
    roundMag f 1 = some f := by
  have hlow : f % 2 ^ excessBits f f = 0 := Nat.mod_eq_zero_of_dvd hd
  have hpos : 0 < 2 ^ excessBits f f := by positivity
  have hcancel : f / 2 ^ excessBits f f * 2 ^ excessBits f f = f := Nat.div_mul_cancel hd
  have hcond : ¬ (2 ^ excessBits f f * 1 < 2 * (0 * 1 + 0) ∨
      (2 * (0 * 1 + 0) = 2 ^ excessBits f f * 1 ∧ f / 2 ^ excessBits f f % 2 = 1)) := by
    rintro (h | ⟨h, _⟩) <;> omega
  simp only [roundMag, Nat.div_one, Nat.mod_one, hlow, hcond, if_false, hcancel]
  rw [if_neg (by omega)]

/-- Whole numbers up to `2^53` are representable exactly. -/
theorem roundMag_nat (n : Nat) (hn : n ≤ 2 ^ 53) :
    roundMag (n * 2 ^ 1074) 1 = some (n * 2 ^ 1074) := by
  have hle : n * 2 ^ 1074 ≤ 2 ^ 53 * 2 ^ 1074 := Nat.mul_le_mul_right _ hn
  have h1127 : (2 : Nat) ^ 53 * 2 ^ 1074 = 2 ^ 1127 := by rw [← pow_add]
  apply roundMag_of_dvd
  · by_cases hsmall : n * 2 ^ 1074 < 2 ^ 53
    · rw [excessBits_small _ _ hsmall, pow_zero]
      exact one_dvd _
    · obtain ⟨hlo, _⟩ := excessBits_large (n * 2 ^ 1074) (n * 2 ^ 1074) le_rfl
        (Nat.not_lt.1 hsmall)
      generalize excessBits (n * 2 ^ 1074) (n * 2 ^ 1074) = s at hlo ⊢
      have hmul : 2 ^ 52 * 2 ^ s ≤ n * 2 ^ 1074 :=
        (Nat.le_div_iff_mul_le (by positivity)).1 hlo
      have hpow : (2 : Nat) ^ (52 + s) ≤ 2 ^ 1127 := by
        rw [pow_add, ← h1127]
        exact hmul.trans hle
      have hs : 52 + s ≤ 1127 := (Nat.pow_le_pow_iff_right (show 1 < 2 by decide)).1 hpow
      by_cases hs2 : s ≤ 1074
      · exact (Nat.pow_dvd_pow 2 hs2).trans (Dvd.intro_left n rfl)
      · have hs3 : s = 1075 := by omega
        subst hs3
        have h2 : (2 : Nat) ^ 52 * 2 ^ 1075 = 2 ^ 53 * 2 ^ 1074 := by
          rw [← pow_add, ← pow_add]
        rw [h2] at hmul
        have hn2 : 2 ^ 53 ≤ n := Nat.le_of_mul_le_mul_right hmul (by positivity)
        have hn3 : n = 2 ^ 53 := Nat.le_antisymm hn hn2
        rw [hn3, ← h2]
        exact Dvd.intro_left _ rfl
  · calc n * 2 ^ 1074 ≤ 2 ^ 53 * 2 ^ 1074 := hle
      _ = 2 ^ 1127 := h1127
      _ < 2 ^ 2098 := Nat.pow_lt_pow_right (by norm_num) (by norm_num)

theorem ofNat_exact (n : Nat) (hn : n ≤ 2 ^ 53) :
    F64.ofNat n = .fin false (n * 2 ^ 1074) := by
  unfold F64.ofNat F64.round
  rw [roundMag_nat n hn]

/-- The sum of two non-negative finite values is their exact sum, rounded. -/
theorem add_fin_fin (j k : Nat) :
    (F64.fin false j).add (.fin false k) = F64.round false (j + k) 1 := rfl

/-- The step `count += 1` is exact while the counter is below `2^53`. -/
theorem add_one_exact (n : Nat) (hn : n < 2 ^ 53) :
    (F64.fin false (n * 2 ^ 1074)).add F64.one = .fin false ((n + 1) * 2 ^ 1074) := by
  have h : n * 2 ^ 1074 + 2 ^ 1074 = (n + 1) * 2 ^ 1074 := by ring
  rw [F64.one, add_fin_fin, h]
  unfold F64.round
  rw [roundMag_nat (n + 1) hn]

/-- At `2^53` the step `count += 1` rounds back to `2^53`: the counter stops. -/
theorem add_one_saturated :
    (F64.fin false (2 ^ 53 * 2 ^ 1074)).add F64.one = .fin false (2 ^ 53 * 2 ^ 1074) := by
  decide!

/-- One more `count += 1`: exact below `2^53`, absorbed from there on. -/
theorem count_step (n : Nat) :
    (F64.fin false (min n (2 ^ 53) * 2 ^ 1074)).add F64.one =
      .fin false (min (n + 1) (2 ^ 53) * 2 ^ 1074) := by
  by_cases h : n < 2 ^ 53
  · rw [Nat.min_eq_left (Nat.le_of_lt h), Nat.min_eq_left (Nat.succ_le_of_lt h)]
    exact add_one_exact n h
  · rw [Nat.min_eq_right (Nat.not_lt.1 h),
      Nat.min_eq_right (Nat.le_succ_of_le (Nat.not_lt.1 h))]
    exact add_one_saturated

/-- The two accumulators of the loop of `GetAverageSalary` after a pass over
`es`: the running sum of the salaries, and the number of elements counted in
`float64`. -/
theorem foldl_sum_count (es : List Employee) (s : F64) (c : Nat) :
    es.foldl (fun (a : F64 × F64) (employee : Employee) =>
        (a.1.add employee.Salary, a.2.add F64.one))
        (s, .fin false (min c (2 ^ 53) * 2 ^ 1074)) =
      ((es.map (·.Salary)).foldl F64.add s,
        .fin false (min (c + es.length) (2 ^ 53) * 2 ^ 1074)) := by
  induction es generalizing s c with
  | nil => rfl
  | cons e rest ih =>
    rw [List.foldl_cons]
    simp only [count_step]
    rw [ih, List.map_cons, List.foldl_cons, List.length_cons]
    rw [show c + 1 + rest.length = c + (rest.length + 1) by omega]

theorem neZero_fin (neg : Bool) (k : Nat) (hk : k ≠ 0) : (F64.fin neg k).neZero = true := by
  cases k with
  | zero => exact absurd rfl hk
  | succ k => rfl

/-- What the body of `GetAverageSalary` returns, for any manager. -/
theorem GetAverageSalary_eq (m : Manager) :
    m.GetAverageSalary =
      if m.Employees = [] then F64.zero
      else (F64.sum (m.Employees.map (·.Salary))).div
        (.fin false (min m.Employees.length (2 ^ 53) * 2 ^ 1074)) := by
  have hz : F64.zero = .fin false (min 0 (2 ^ 53) * 2 ^ 1074) := by
    rw [Nat.zero_min, Nat.zero_mul]
    rfl
  have hfold := foldl_sum_count m.Employees F64.zero 0
  rw [← hz, Nat.zero_add] at hfold
  unfold Manager.GetAverageSalary
  simp only [hfold]
  by_cases he : m.Employees = []
  · rw [if_pos he, he]
    rfl
  · have hlen : 0 < m.Employees.length := List.length_pos.2 he
    have hmin : 0 < min m.Employees.length (2 ^ 53) := Nat.lt_min.2 ⟨hlen, by positivity⟩
    have hk : min m.Employees.length (2 ^ 53) * 2 ^ 1074 ≠ 0 :=
      Nat.ne_of_gt (Nat.mul_pos hmin (by positivity))
    rw [if_neg he, neZero_fin _ _ hk, if_pos rfl]
    rfl

/-- Rounding `q * D / D` is rounding `q`. -/
theorem roundMag_mul (q D : Nat) (hD : 0 < D) : roundMag (q * D) D = roundMag q 1 := by
  have h1 : q * D / D = q := Nat.mul_div_cancel q hD
  have h2 : q * D % D = 0 := Nat.mul_mod_left q D
  have e1 : ∀ a b : Nat, (a * D < 2 * (b * D + 0)) ↔ (a * 1 < 2 * (b * 1 + 0)) := by
    intro a b
    rw [Nat.add_zero, Nat.add_zero, Nat.mul_one, Nat.mul_one, ← Nat.mul_assoc]
    exact Nat.mul_lt_mul_right hD
  have e2 : ∀ a b : Nat, (2 * (b * D + 0) = a * D) ↔ (2 * (b * 1 + 0) = a * 1) := by
    intro a b
    rw [Nat.add_zero, Nat.add_zero, Nat.mul_one, Nat.mul_one, ← Nat.mul_assoc]
    exact Nat.mul_left_inj (Nat.ne_of_gt hD)
  simp only [roundMag, h1, h2, Nat.div_one, Nat.mod_one, e1, e2]

/-- The quotient of two non-negative finite values, the divisor not zero, is the
exact quotient rounded. -/
theorem div_fin_fin (j k : Nat) (hk : k ≠ 0) :
    (F64.fin false j).div (.fin false k) = F64.round false (j * 2 ^ 1074) k := by
  rw [F64.div, if_neg hk]
  rfl

/-- When the exact quotient of the sum by the count is a representable
magnitude, the division returns it. -/
theorem div_exact (S L mean : Nat) (hL : 0 < L) (hm : mean * L = S)
    (hr : roundMag mean 1 = some mean) :
    (F64.fin false S).div (.fin false (L * 2 ^ 1074)) = .fin false mean := by
  have hD : 0 < L * 2 ^ 1074 := Nat.mul_pos hL (by positivity)
  rw [div_fin_fin _ _ (Nat.ne_of_gt hD), ← hm, Nat.mul_assoc]
  unfold F64.round
  rw [roundMag_mul mean _ hD, hr]

/-- When every running sum is a representable magnitude, the loop holds the
exact sum. -/
theorem sum_exact (ks : List Nat)
    (h : ∀ i, i ≤ ks.length → roundMag (ks.take i).sum 1 = some (ks.take i).sum) :
    F64.sum (ks.map (F64.fin false)) = .fin false ks.sum := by
  induction ks using List.reverseRecOn with
  | nil => rfl
  | append_singleton l a ih =>
    have hl : F64.sum (l.map (F64.fin false)) = .fin false l.sum := by
      apply ih
      intro i hi
      have := h i (by rw [List.length_append]; omega)
      rwa [List.take_append_of_le_length hi] at this
    have hall := h (l ++ [a]).length le_rfl
    rw [List.take_length] at hall
    unfold F64.sum at hl ⊢
    rw [List.map_append, List.foldl_append, hl]
    rw [List.map_cons, List.map_nil, List.foldl_cons, List.foldl_nil, add_fin_fin]
    rw [List.sum_append, List.sum_singleton] at hall ⊢
    unfold F64.round
    rw [hall]

/-! ### The claim about the average -/

/-- Two rosters on which `GetAverageSalary` is not the arithmetic mean of the
salaries.  With two salaries of `2^1023` (`2^2097` units each) the mean `2^1023` is
a `float64`, but the sum overflows and the result is `+Inf`.  With the salaries
`2^53`, `1`, `1`, `2` the mean `2^51 + 1` is a `float64`, but the two additions
of `1` are rounded away and the result is `2^51 + 0.5`. -/
theorem GetAverageSalary_not_mean :
    ((Manager.empty.run overflowCalls).Employees.map (·.Salary) =
        [.fin false (2 ^ 2097), .fin false (2 ^ 2097)] ∧
      2 ^ 2097 * 2 = 2 ^ 2097 + 2 ^ 2097 ∧
      roundMag (2 ^ 2097) 1 = some (2 ^ 2097) ∧
      (Manager.empty.run overflowCalls).GetAverageSalary = .inf false ∧
      (Manager.empty.run overflowCalls).GetAverageSalary ≠ .fin false (2 ^ 2097)) ∧
    ((Manager.empty.run roundingCalls).Employees.map (·.Salary) =
        [.fin false (2 ^ 53 * 2 ^ 1074), .fin false (1 * 2 ^ 1074),
          .fin false (1 * 2 ^ 1074), .fin false (2 * 2 ^ 1074)] ∧
      (2 ^ 51 + 1) * 2 ^ 1074 * 4 =
        2 ^ 53 * 2 ^ 1074 + 1 * 2 ^ 1074 + 1 * 2 ^ 1074 + 2 * 2 ^ 1074 ∧
      roundMag ((2 ^ 51 + 1) * 2 ^ 1074) 1 = some ((2 ^ 51 + 1) * 2 ^ 1074) ∧
      (Manager.empty.run roundingCalls).GetAverageSalary =
        .fin false ((2 ^ 52 + 1) * 2 ^ 1073) ∧
      (Manager.empty.run roundingCalls).GetAverageSalary ≠
        .fin false ((2 ^ 51 + 1) * 2 ^ 1074)) :=
  ⟨⟨by decide!, by decide!, by decide!, by decide!, by decide!⟩,
    ⟨by decide!, by decide!, by decide!, by decide!, by decide!⟩⟩

/-- C1, as the code has it: for the roster reached from the empty manager by any
finite sequence of `AddEmployee` and `RemoveEmployee` calls, `GetAverageSalary`
returns `0.0` when the roster is empty; otherwise it returns the `float64`
quotient of the running `float64` sum of the salaries currently in the roster,
taken in order, by their count (a count that stops growing at `2^53`).  That
quotient is the arithmetic mean of the salaries whenever these are non-negative
finite values of which every running sum, and the mean itself, is a `float64`
value: `ks` are the salaries in units of `2^-1074` and `mean` their exact
mean. -/
theorem GetAverageSalary_float64 (calls : List Call) :
    ((Manager.empty.run calls).Employees = [] →
      (Manager.empty.run calls).GetAverageSalary = F64.zero) ∧
    ((Manager.empty.run calls).Employees ≠ [] →
      (Manager.empty.run calls).GetAverageSalary =
        (F64.sum ((Manager.empty.run calls).Employees.map (·.Salary))).div
          (F64.ofNat (min (Manager.empty.run calls).Employees.length (2 ^ 53)))) ∧
    (∀ (ks : List Nat) (mean : Nat),
      (Manager.empty.run calls).Employees.map (·.Salary) = ks.map (F64.fin false) →
      ks ≠ [] → ks.length ≤ 2 ^ 53 →
      (∀ i, i ≤ ks.length → roundMag (ks.take i).sum 1 = some (ks.take i).sum) →
      mean * ks.length = ks.sum → roundMag mean 1 = some mean →
      (Manager.empty.run calls).GetAverageSalary = .fin false mean) := by
  generalize Manager.empty.run calls = m
  have heq := GetAverageSalary_eq m
  refine ⟨fun he => ?_, fun he => ?_, ?_⟩
  · rw [heq, if_pos he]
  · rw [heq, if_neg he, ofNat_exact _ (Nat.min_le_right _ _)]
  · intro ks mean hks hne hlen hrun hmean hrep
    have hlen2 : m.Employees.length = ks.length := by
      have := congrArg List.length hks
      simpa using this
    have he : m.Employees ≠ [] := by
      intro h
      rw [h] at hlen2
      exact hne (List.length_eq_zero.1 hlen2.symm)
    rw [heq, if_neg he, hks, hlen2, Nat.min_eq_left hlen, sum_exact ks hrun]
    exact div_exact ks.sum ks.length mean (List.length_pos.2 hne) hmean hrep

/-- The roster of `main` before its removal: the result is the quotient of the
running sum by the count 2, and since 70000, 135000 and the mean 67500 are all
`float64` values, it is the arithmetic mean 67500. -/
theorem GetAverageSalary_float64_witness :
    addedRoster.Employees ≠ [] ∧
    addedRoster.GetAverageSalary =
      (F64.sum (addedRoster.Employees.map (·.Salary))).div
        (F64.ofNat (min addedRoster.Employees.length (2 ^ 53))) ∧
    addedRoster.Employees.map (·.Salary) =
      [70000 * 2 ^ 1074, 65000 * 2 ^ 1074].map (F64.fin false) ∧
    67500 * 2 ^ 1074 * [70000 * 2 ^ 1074, 65000 * 2 ^ 1074].length =
      [70000 * 2 ^ 1074, 65000 * 2 ^ 1074].sum ∧
    addedRoster.GetAverageSalary = .fin false (67500 * 2 ^ 1074) ∧
    addedRoster.GetAverageSalary = F64.ofNat 67500 :=
  ⟨by decide!,
    (GetAverageSalary_float64 [.add alice, .add bob]).2.1 (by decide!),
    by decide!, by decide!,
    (GetAverageSalary_float64 [.add alice, .add bob]).2.2
      [70000 * 2 ^ 1074, 65000 * 2 ^ 1074] (67500 * 2 ^ 1074)
      (by decide!) (by decide!) (by decide!) (by decide!) (by decide!) (by decide!),
    by decide!⟩

end Roster
